import Mathlib

/-!
# sel4bench `irq.c`: the log reduction of the IRQ path benchmarks

A shallow embedding of `apps/sel4bench/src/irq.c` (`process` and
`irquser_process`) together with the helpers it calls, followed by the
properties established about them.

Conventions of the embedding

* C `unsigned int` and `int` are 32 bits wide; arithmetic on them is written
  with explicit reduction modulo `2 ^ 32` (`uint_sub`, `uint_add`,
  `int_of_uint`).
* `ccnt_t` is an unsigned counter of `w` bits; `w` is a parameter because the
  type declaration is not part of `irq.c`.
* Values of type `ccnt_t` and the cycle counts of log entries are naturals;
  the inputs are taken to fit their C types.
* A C `double` (the mean of a `result_t`) is an exact rational: the rounding
  of binary64 arithmetic is not modelled. The conversion of a `double` to
  `ccnt_t` truncates toward zero and is undefined when the result does not
  fit, as in C.
* C arrays are lists; a read or write outside an array is the failure
  `Fatal.out_of_bounds`.
* `N_IGNORED`, `N_RUNS` and `KERNEL_MAX_NUM_LOG_ENTRIES` come from headers and
  are parameters (the last one is the length of the list `kernel_log_data`).
-/

namespace Irq

/-! ## Data model -/

/-- Modelled from the spec: the Sample record `kernel_log_entry_t` (declared in
a kernel header that is not among the sources): the tag (`key`) of the
tracepoint and the raw cycle count (`data`). -/
structure kernel_log_entry_t where
  key : Nat
  data : Nat
deriving DecidableEq, Repr

/-- Modelled from the spec: the accessor `kernel_logging_entry_get_data` (of a
kernel header that is not among the sources) used on line 48: the cycle count
of an entry. -/
def kernel_logging_entry_get_data (e : kernel_log_entry_t) : Nat := e.data

/-- Tag of the empty tracepoint (line 23, value 0). -/
def TRACE_POINT_OVERHEAD : Nat := 0

/-- Tag of the first tracepoint of the IRQ path (line 24, value 1). -/
def TRACE_POINT_IRQ_PATH_START : Nat := 1

/-- Tag of the second tracepoint of the IRQ path (line 25, value 2). -/
def TRACE_POINT_IRQ_PATH_END : Nat := 2

/-- The number of tracepoints. `irq_benchmark.enabled` (line 105) requires
`CONFIG_MAX_NUM_TRACE_POINTS == 3`, so `process` only ever runs with 3. -/
def CONFIG_MAX_NUM_TRACE_POINTS : Nat := 3

/-- The ways in which a processing step stops without a result. -/
inductive Fatal where
  /-- The fatal log "Insufficient data recorded. ..." of lines 58 and 68. -/
  | insufficient_data
  /-- The fatal log "Failed to allocate memory" of line 73. -/
  | allocation_failure
  /-- A reduction was asked for an empty sequence. -/
  | precondition_failure
  /-- An array cell outside its array was read or written. -/
  | out_of_bounds
  /-- A floating value outside the range of `ccnt_t` was converted to `ccnt_t`. -/
  | undefined_conversion
deriving DecidableEq, Repr

/-- Modelled from the spec: the `SummaryResult` record `result_t` (declared in
`processing.h`, which is not among the sources): mean, minimum and sample count.
The spec's `f64` mean is carried as an exact rational. -/
structure result_t where
  min : Nat
  mean : ℚ
  n : Nat
deriving DecidableEq, Repr

/-! ## C integer arithmetic -/

/-- Two to the width of `unsigned int`. -/
def UINT_MOD : Nat := 2 ^ 32

/-- Subtraction of two `unsigned int` values (the `int` operand `N_IGNORED`
is converted to `unsigned int` first). -/
def uint_sub (a b : Nat) : Nat := (a % UINT_MOD + UINT_MOD - b % UINT_MOD) % UINT_MOD

/-- Addition of two `unsigned int` values. -/
def uint_add (a b : Nat) : Nat := (a + b) % UINT_MOD

/-- Conversion of an `unsigned int` value to `int` (two's complement). -/
def int_of_uint (u : Nat) : Int := if u < 2 ^ 31 then (u : Int) else (u : Int) - (UINT_MOD : Int)

/-- Subtraction of two `ccnt_t` values of `w` bits, as done by `-=` on line 130. -/
def ccnt_sub (w a b : Nat) : Nat := (a % 2 ^ w + 2 ^ w - b % 2 ^ w) % 2 ^ w

/-- Addition of two `ccnt_t` values of `w` bits. -/
def ccnt_add (w a b : Nat) : Nat := (a + b) % 2 ^ w

/-- Truncation toward zero of a rational. -/
def trunc (q : ℚ) : Int := if 0 ≤ q then ⌊q⌋ else ⌈q⌉

/-- Conversion of a floating value to `ccnt_t` (the assignment on line 83):
the value is truncated toward zero; C defines the result only when the
truncated value fits `ccnt_t`. -/
def double_to_ccnt (w : Nat) (q : ℚ) : Except Fatal Nat :=
  if 0 ≤ trunc q ∧ trunc q < 2 ^ w then .ok (trunc q).toNat else .error .undefined_conversion

/-! ## Helpers that `irq.c` calls -/

/-- Modelled from the spec: the insertion step of the stable sort keyed on the
tag (`logging_stable_sort_log` is declared in `sel4bench/logging.h`, not among
the sources). The new entry goes in front of the first entry whose tag is not
smaller. -/
def stable_insert (e : kernel_log_entry_t) : List kernel_log_entry_t → List kernel_log_entry_t
  | [] => [e]
  | b :: l => if e.key ≤ b.key then e :: b :: l else b :: stable_insert e l

/-- Modelled from the spec: `logging_stable_sort_log`, the StableGrouper's
"stable sort keyed on tag" (not among the sources), as an insertion sort. -/
def logging_stable_sort_log : List kernel_log_entry_t → List kernel_log_entry_t
  | [] => []
  | e :: l => stable_insert e (logging_stable_sort_log l)

/-- The `sizes` and `offsets` arrays filled by `logging_group_log_by_key`. -/
structure groups_t where
  sizes : List Nat
  offsets : List Nat
deriving DecidableEq, Repr

/-- Modelled from the spec: the scan of `logging_group_log_by_key` (not among
the sources): for each tag in tag order, the offset of its block is the current
index and its count is the length of the run of entries carrying that tag.
`rest` is the part of the log from `index` on, `key` the current tag and the
last argument the number of tags still to do. -/
def group_from : List kernel_log_entry_t → Nat → Nat → Nat → List (Nat × Nat)
  | _, _, _, 0 => []
  | rest, index, key, g + 1 =>
    let run := (rest.takeWhile (fun e => e.key == key)).length
    (index, run) :: group_from (rest.drop run) (index + run) (key + 1) g

/-- Modelled from the spec: `logging_group_log_by_key(log, n, sizes, offsets,
max_groups)` (not among the sources): "one TagRange per tag in tag order,
describing offset and count of that tag's block in the sorted sequence". -/
def logging_group_log_by_key (log : List kernel_log_entry_t) (max_groups : Nat) : groups_t :=
  let ranges := group_from log 0 0 max_groups
  { sizes := ranges.map Prod.snd, offsets := ranges.map Prod.fst }

/-- Minimum by linear scan. -/
def results_min : List Nat → Nat
  | [] => 0
  | x :: xs => xs.foldl Nat.min x

/-- Modelled from the spec: `process_result` of `processing.c` (not among the
sources), the StatReducer `reduce`: arithmetic mean of all values divided by
the count, minimum by linear scan; an empty input is a precondition failure.
The argument is the sequence of the `size` cells the C pointer designates. -/
def process_result (array : List Nat) : Except Fatal result_t :=
  if array.length = 0 then .error .precondition_failure
  else .ok { min := results_min array, mean := (array.sum : ℚ) / (array.length : ℚ),
             n := array.length }

/-- The cells `base, base + 1, ..., base + size - 1` of an array. -/
def read_range (buf : List Nat) (base size : Nat) : Except Fatal (List Nat) :=
  if base + size ≤ buf.length then .ok ((buf.drop base).take size) else .error .out_of_bounds

/-- One cell of an array. -/
def read_cell (buf : List Nat) (i : Nat) : Except Fatal Nat :=
  match buf[i]? with
  | some v => .ok v
  | none => .error .out_of_bounds

/-- Modelled from the spec: `process_result_ignored(array, size, ignored, name)`
of `processing.c` (not among the sources): the WarmupFilter drops the first
`ignored` of the `size` cells of the array and the rest is reduced. -/
def process_result_ignored (array : List Nat) (size ignored : Nat) : Except Fatal result_t :=
  match read_range array 0 size with
  | .error e => .error e
  | .ok cells => process_result (cells.drop ignored)

/-! ## `process` (lines 35-100) -/

/-- The reductions and the correction a run of `process` performs, in program
order, and the fatal condition that ended it, if any. -/
inductive Event where
  /-- A fatal condition; nothing is executed after it. -/
  | fatal (e : Fatal)
  /-- The call `process_result(overhead_data, n_overhead_data, NULL)` (lines 62, 87). -/
  | reduce_overhead (size : Int)
  /-- The loop of lines 82-84, which subtracts the overhead from `n_data` sums. -/
  | correct (n_data : Int)
  /-- The call `process_result(data, n_data, NULL)` (line 94). -/
  | reduce_data (size : Int)
deriving DecidableEq, Repr

/-- The values of the variables of `process` when it returns. `overhead_data`,
`starts` and `ends` are the indices into `kernel_log_data` at which the
pointers of the same names point. -/
structure process_state where
  sizes : List Nat
  offsets : List Nat
  kernel_log_data : List Nat
  n_overhead_data : Int
  overhead_data : Nat
  overhead_result : result_t
  n_data : Int
  starts : Nat
  ends : Nat
  data : List Nat
  result_overhead : result_t
  result : result_t
deriving DecidableEq, Repr

/-- A run of `process`: what it did, and what it ended with. -/
structure Run where
  trace : List Event
  outcome : Except Fatal process_state

/-- The usable count of a tag, `sizes[tag] - N_IGNORED` stored in an `int`
(lines 56 and 66). -/
def usable_count (sizes : List Nat) (tag N_IGNORED : Nat) : Int :=
  int_of_uint (uint_sub (sizes.getD tag 0) N_IGNORED)

/-- The index `offsets[tag] + N_IGNORED` of the first usable cell of a tag
(lines 61, 80 and 81). -/
def usable_start (offsets : List Nat) (tag N_IGNORED : Nat) : Nat :=
  uint_add (offsets.getD tag 0) N_IGNORED

/-- The loop of lines 82-84: `data[i] = starts[i] + ends[i] - (mean * 2)` for
`i` from the fourth argument on, for as many rounds as the third says. -/
def amalgamate (w : Nat) (buf : List Nat) (starts ends : Nat) (mean : ℚ) :
    Nat → Nat → Except Fatal (List Nat)
  | 0, _ => .ok []
  | k + 1, i =>
    match read_cell buf (starts + i) with
    | .error e => .error e
    | .ok s =>
    match read_cell buf (ends + i) with
    | .error e => .error e
    | .ok e =>
    match double_to_ccnt w ((ccnt_add w s e : ℚ) - mean * 2) with
    | .error e => .error e
    | .ok d =>
    match amalgamate w buf starts ends mean k (i + 1) with
    | .error e => .error e
    | .ok rest => .ok (d :: rest)

/-- The call `process_result(&buf[base], size, NULL)`. -/
def process_result_at (buf : List Nat) (base : Nat) (size : Int) : Except Fatal result_t :=
  match read_range buf base size.toNat with
  | .error e => .error e
  | .ok cells => process_result cells

/-- Modelled from the spec: the macro `ZF_LOGF` (defined in a header that is
not among the sources) reports a fatal condition, which ends the processing
step: the run consists of what was done before, then the fatal event, and it
has no final state. -/
def ZF_LOGF (done : List Event) (e : Fatal) : Run :=
  ⟨done ++ [.fatal e], .error e⟩

/-- The end of a run at a point where C gives no result: an access outside an
array, a conversion whose value does not fit, or a helper whose precondition
fails. -/
def stopped (done : List Event) (e : Fatal) : Run :=
  ⟨done ++ [.fatal e], .error e⟩

/-- The function `process` of `irq.c`. `kernel_log` holds the `irq_results->n`
entries of the log, `kernel_log_data` is the static array of the same name
with the contents it has on entry, and `malloc_ok` says whether the `malloc`
of line 71 succeeds. -/
def process (w N_IGNORED : Nat) (malloc_ok : Bool) (kernel_log_data : List Nat)
    (kernel_log : List kernel_log_entry_t) : Run :=
  let n := kernel_log.length
  let sorted := logging_stable_sort_log kernel_log
  let g := logging_group_log_by_key sorted CONFIG_MAX_NUM_TRACE_POINTS
  if kernel_log_data.length < n then stopped [] .out_of_bounds else
  let buf := sorted.map kernel_logging_entry_get_data ++ kernel_log_data.drop n
  let n_overhead_data := usable_count g.sizes TRACE_POINT_OVERHEAD N_IGNORED
  if n_overhead_data ≤ 0 then ZF_LOGF [] .insufficient_data else
  let overhead_data := usable_start g.offsets TRACE_POINT_OVERHEAD N_IGNORED
  match process_result_at buf overhead_data n_overhead_data with
  | .error e => stopped [.reduce_overhead n_overhead_data] e
  | .ok overhead_result =>
  let n_data := usable_count g.sizes TRACE_POINT_IRQ_PATH_START N_IGNORED
  if n_data ≤ 0 then ZF_LOGF [.reduce_overhead n_overhead_data] .insufficient_data else
  if malloc_ok = false then
    ZF_LOGF [.reduce_overhead n_overhead_data] .allocation_failure else
  let starts := usable_start g.offsets TRACE_POINT_IRQ_PATH_START N_IGNORED
  let ends := usable_start g.offsets TRACE_POINT_IRQ_PATH_END N_IGNORED
  match amalgamate w buf starts ends overhead_result.mean n_data.toNat 0 with
  | .error e => stopped [.reduce_overhead n_overhead_data, .correct n_data] e
  | .ok data =>
  match process_result_at buf overhead_data n_overhead_data with
  | .error e =>
    stopped [.reduce_overhead n_overhead_data, .correct n_data,
      .reduce_overhead n_overhead_data] e
  | .ok result_overhead =>
  match process_result data with
  | .error e =>
    stopped [.reduce_overhead n_overhead_data, .correct n_data,
      .reduce_overhead n_overhead_data, .reduce_data n_data] e
  | .ok result =>
    ⟨[.reduce_overhead n_overhead_data, .correct n_data,
      .reduce_overhead n_overhead_data, .reduce_data n_data],
     .ok { sizes := g.sizes, offsets := g.offsets, kernel_log_data := buf,
           n_overhead_data := n_overhead_data, overhead_data := overhead_data,
           overhead_result := overhead_result, n_data := n_data,
           starts := starts, ends := ends, data := data,
           result_overhead := result_overhead, result := result }⟩

/-! ## `irquser_process` (lines 117-146) -/

/-- The three arrays of `irquser_results_t` (declared in `irq.h`, which is not
among the sources) that `irquser_process` uses, each of `N_RUNS` entries. -/
structure irquser_results_t where
  overheads : List Nat
  thread_results : List Nat
  process_results : List Nat
deriving DecidableEq, Repr

/-- The loop of lines 129-132, from index `i` (third argument) for as many
rounds as the second argument says: `overhead_min` is subtracted in place from
`thread_results[i]` and `process_results[i]`. -/
def account_for_overhead (w overhead_min : Nat) :
    Nat → Nat → irquser_results_t → Except Fatal irquser_results_t
  | 0, _, r => .ok r
  | k + 1, i, r =>
    match read_cell r.thread_results i with
    | .error e => .error e
    | .ok t =>
    match read_cell r.process_results i with
    | .error e => .error e
    | .ok p =>
      account_for_overhead w overhead_min k (i + 1)
        { r with thread_results := r.thread_results.set i (ccnt_sub w t overhead_min),
                 process_results := r.process_results.set i (ccnt_sub w p overhead_min) }

/-- The values of the variables of `irquser_process` when it returns. -/
structure irquser_state where
  raw_results : irquser_results_t
  overhead : result_t
  intraas_result : result_t
  interas_result : result_t
deriving DecidableEq, Repr

/-- The function `irquser_process` of `irq.c`. -/
def irquser_process (w N_RUNS N_IGNORED : Nat) (raw_results : irquser_results_t) :
    Except Fatal irquser_state :=
  match process_result_ignored raw_results.overheads N_RUNS N_IGNORED with
  | .error e => .error e
  | .ok overhead =>
  match account_for_overhead w overhead.min N_RUNS 0 raw_results with
  | .error e => .error e
  | .ok raw =>
  match process_result_ignored raw.thread_results N_RUNS N_IGNORED with
  | .error e => .error e
  | .ok intraas_result =>
  match process_result_ignored raw.process_results N_RUNS N_IGNORED with
  | .error e => .error e
  | .ok interas_result =>
    .ok { raw_results := raw, overhead := overhead,
          intraas_result := intraas_result, interas_result := interas_result }

/-- Equality of outcomes is decidable. -/
instance instDecidableEqOutcome {ε α : Type} [DecidableEq ε] [DecidableEq α] :
    DecidableEq (Except ε α)
  | .ok a, .ok b => if h : a = b then isTrue (by rw [h]) else isFalse (by intro h2; cases h2; exact h rfl)
  | .error a, .error b =>
    if h : a = b then isTrue (by rw [h]) else isFalse (by intro h2; cases h2; exact h rfl)
  | .ok _, .error _ => isFalse (by intro h; cases h)
  | .error _, .ok _ => isFalse (by intro h; cases h)

/-! ## Vocabulary of the statements -/

/-- Number of entries whose tag is below `t`. -/
def count_below (l : List kernel_log_entry_t) (t : Nat) : Nat :=
  (l.filter (fun e => decide (e.key < t))).length

/-- Number of entries whose tag is `t`. -/
def count_tag (l : List kernel_log_entry_t) (t : Nat) : Nat :=
  (l.filter (fun e => e.key == t)).length

/-- The cycle counts of the samples of a tag, in the chronological order of the
input log. -/
def samples_of (log : List kernel_log_entry_t) (tag : Nat) : List Nat :=
  (log.filter (fun e => e.key == tag)).map kernel_logging_entry_get_data

/-- The arrays `sizes` and `offsets` as `process` has them after lines 43-44. -/
def sort_and_group (log : List kernel_log_entry_t) : groups_t :=
  logging_group_log_by_key (logging_stable_sort_log log) CONFIG_MAX_NUM_TRACE_POINTS

/-- The contents of the static array `kernel_log_data` after the copy loop of
lines 47-49: the cycle counts of the sorted log, then what the array held
before from index `n` on. -/
def copied_data (kernel_log_data : List Nat) (log : List kernel_log_entry_t) : List Nat :=
  (logging_stable_sort_log log).map kernel_logging_entry_get_data
    ++ kernel_log_data.drop log.length

/-- Three runs measured from user level, the first one a warm-up run; in the
second run the thread and process results lie below the smallest retained
overhead, 5. -/
def irquser_example : irquser_results_t :=
  { overheads := [9, 5, 6], thread_results := [7, 3, 8], process_results := [9, 4, 10] }

theorem stable_insert_perm (e : kernel_log_entry_t) (l : List kernel_log_entry_t) :
    (stable_insert e l).Perm (e :: l) := by
  induction l with
  | nil => simp [stable_insert]
  | cons b l ih =>
    simp only [stable_insert]
    split
    · exact List.Perm.refl _
    · exact (List.Perm.cons b ih).trans (List.Perm.swap e b l)

theorem mem_stable_insert {x e : kernel_log_entry_t} {l : List kernel_log_entry_t} :
    x ∈ stable_insert e l ↔ x = e ∨ x ∈ l :=
  (stable_insert_perm e l).mem_iff.trans List.mem_cons

theorem stable_insert_sorted (e : kernel_log_entry_t) (l : List kernel_log_entry_t)
    (h : l.Pairwise (fun a b => a.key ≤ b.key)) :
    (stable_insert e l).Pairwise (fun a b => a.key ≤ b.key) := by
  induction l with
  | nil => simp [stable_insert]
  | cons b l ih =>
    simp only [stable_insert]
    have hb := List.pairwise_cons.mp h
    split
    · rename_i hle
      refine List.pairwise_cons.mpr ⟨?_, h⟩
      intro x hx
      rcases List.mem_cons.mp hx with rfl | hx
      · exact hle
      · exact le_trans hle (hb.1 x hx)
    · rename_i hnle
      refine List.pairwise_cons.mpr ⟨?_, ih hb.2⟩
      intro x hx
      rcases mem_stable_insert.mp hx with rfl | hx
      · omega
      · exact hb.1 x hx

theorem filter_stable_insert (t : Nat) (e : kernel_log_entry_t) (l : List kernel_log_entry_t) :
    (stable_insert e l).filter (fun x => x.key == t) = (e :: l).filter (fun x => x.key == t) := by
  induction l with
  | nil => simp [stable_insert]
  | cons b l ih =>
    simp only [stable_insert]
    split
    · rfl
    · rename_i hnle
      rw [List.filter_cons, ih]
      by_cases hb : b.key = t
      · have he : e.key ≠ t := by omega
        simp [List.filter_cons, hb, he]
      · simp [List.filter_cons, hb]

theorem sort_perm (log : List kernel_log_entry_t) : (logging_stable_sort_log log).Perm log := by
  induction log with
  | nil => exact List.Perm.refl _
  | cons e l ih =>
    exact (stable_insert_perm e _).trans (List.Perm.cons e ih)

theorem sort_sorted (log : List kernel_log_entry_t) :
    (logging_stable_sort_log log).Pairwise (fun a b => a.key ≤ b.key) := by
  induction log with
  | nil => exact List.Pairwise.nil
  | cons e l ih => exact stable_insert_sorted e _ ih

theorem sort_filter (t : Nat) (log : List kernel_log_entry_t) :
    (logging_stable_sort_log log).filter (fun x => x.key == t)
      = log.filter (fun x => x.key == t) := by
  induction log with
  | nil => rfl
  | cons e l ih =>
    show (stable_insert e (logging_stable_sort_log l)).filter _ = _
    rw [filter_stable_insert, List.filter_cons, List.filter_cons, ih]

theorem sort_length (log : List kernel_log_entry_t) :
    (logging_stable_sort_log log).length = log.length :=
  (sort_perm log).length_eq

/-! ## Lists sorted by tag and the grouping scan -/

theorem count_below_succ (l : List kernel_log_entry_t) (t : Nat) :
    count_below l (t + 1) = count_below l t + count_tag l t := by
  unfold count_below count_tag
  induction l with
  | nil => rfl
  | cons a l ih =>
    by_cases h1 : a.key < t
    · have h2 : a.key < t + 1 := by omega
      have h3 : a.key ≠ t := by omega
      simp [List.filter_cons, h1, h2, h3] at ih ⊢
      omega
    · by_cases h3 : a.key = t
      · have h2 : a.key < t + 1 := by omega
        simp [List.filter_cons, h1, h2, h3] at ih ⊢
        omega
      · have h2 : ¬ a.key < t + 1 := by omega
        simp [List.filter_cons, h1, h2, h3] at ih ⊢
        omega

theorem count_below_eq_zero (l : List kernel_log_entry_t) (k : Nat)
    (hk : ∀ e ∈ l, k ≤ e.key) : count_below l k = 0 := by
  unfold count_below
  rw [List.length_eq_zero, List.filter_eq_nil_iff]
  intro e he
  have := hk e he
  simp
  omega

theorem count_below_eq_length (l : List kernel_log_entry_t) (k : Nat)
    (hk : ∀ e ∈ l, e.key < k) : count_below l k = l.length := by
  unfold count_below
  rw [List.filter_eq_self.mpr]
  intro e he
  simpa using hk e he

theorem sorted_split (t : Nat) (l : List kernel_log_entry_t)
    (h : l.Pairwise (fun a b => a.key ≤ b.key)) :
    l = l.filter (fun e => decide (e.key < t)) ++ l.filter (fun e => e.key == t)
          ++ l.filter (fun e => decide (t < e.key)) := by
  induction l with
  | nil => rfl
  | cons a l ih =>
    have ha := List.pairwise_cons.mp h
    have ih := ih ha.2
    by_cases h1 : a.key < t
    · have h3 : a.key ≠ t := by omega
      have h4 : ¬ t < a.key := by omega
      simp only [List.filter_cons, h1, h3, h4, decide_True, decide_False, beq_iff_eq, if_true,
        if_false, List.cons_append, Bool.false_eq_true]
      rw [← ih]
    · have hnil : l.filter (fun e => decide (e.key < t)) = [] := by
        rw [List.filter_eq_nil_iff]
        intro e he
        have := ha.1 e he
        simp
        omega
      by_cases h3 : a.key = t
      · have h4 : ¬ t < a.key := by omega
        rw [hnil] at ih
        simp only [List.filter_cons, h1, h3, h4, decide_True, decide_False, beq_iff_eq, if_true,
          if_false, List.cons_append, Bool.false_eq_true, hnil, List.nil_append]
        rw [h3] at h4
        simp only [lt_self_iff_false, decide_False, Bool.false_eq_true, if_false, beq_self_eq_true,
          if_true, List.cons_append]
        congr 1
      · have h4 : t < a.key := by omega
        have hnil2 : l.filter (fun e => e.key == t) = [] := by
          rw [List.filter_eq_nil_iff]
          intro e he
          have := ha.1 e he
          simp
          omega
        rw [hnil, hnil2] at ih
        simp only [List.filter_cons, h1, h3, h4, decide_True, decide_False, beq_iff_eq, if_true,
          if_false, List.cons_append, Bool.false_eq_true, hnil, hnil2, List.nil_append]
        congr 1

theorem sorted_block (t : Nat) (l : List kernel_log_entry_t)
    (h : l.Pairwise (fun a b => a.key ≤ b.key)) :
    (l.drop (count_below l t)).take (count_tag l t) = l.filter (fun e => e.key == t) := by
  have hl := congrArg (fun x => (List.drop (count_below l t) x).take (count_tag l t))
    (sorted_split t l h)
  simp only at hl
  rw [hl]
  unfold count_below count_tag
  rw [List.append_assoc, List.drop_left, List.take_left]

theorem takeWhile_eq_filter (k : Nat) (l : List kernel_log_entry_t)
    (h : l.Pairwise (fun a b => a.key ≤ b.key)) (hk : ∀ e ∈ l, k ≤ e.key) :
    l.takeWhile (fun e => e.key == k) = l.filter (fun e => e.key == k) := by
  induction l with
  | nil => rfl
  | cons a l ih =>
    have ha := List.pairwise_cons.mp h
    by_cases h1 : a.key = k
    · simp only [List.takeWhile_cons, List.filter_cons, h1, beq_self_eq_true, if_true]
      rw [ih ha.2 (fun e he => hk e (List.mem_cons_of_mem _ he))]
    · have hnil : l.filter (fun e => e.key == k) = [] := by
        rw [List.filter_eq_nil_iff]
        intro e he
        have h2 := ha.1 e he
        have h3 := hk a (List.mem_cons_self _ _)
        simp
        omega
      simp [List.takeWhile_cons, List.filter_cons, h1, hnil]

theorem drop_takeWhile_keys (k : Nat) (l : List kernel_log_entry_t)
    (h : l.Pairwise (fun a b => a.key ≤ b.key)) (hk : ∀ e ∈ l, k ≤ e.key) :
    ∀ e ∈ l.drop (l.takeWhile (fun e => e.key == k)).length, k + 1 ≤ e.key := by
  induction l with
  | nil => simp
  | cons a l ih =>
    have ha := List.pairwise_cons.mp h
    by_cases h1 : a.key = k
    · simp only [List.takeWhile_cons, h1, beq_self_eq_true, if_true, List.length_cons,
        List.drop_succ_cons]
      exact ih ha.2 (fun e he => hk e (List.mem_cons_of_mem _ he))
    · have h3 := hk a (List.mem_cons_self _ _)
      simp only [List.takeWhile_cons, h1, beq_iff_eq, if_false, List.length_nil, List.drop_zero]
      intro e he
      rcases List.mem_cons.mp he with rfl | he
      · omega
      · have := ha.1 e he
        omega

theorem counts_drop_takeWhile (k t : Nat) (hkt : k < t) (l : List kernel_log_entry_t) :
    count_below l t = (l.takeWhile (fun e => e.key == k)).length
        + count_below (l.drop (l.takeWhile (fun e => e.key == k)).length) t
    ∧ count_tag l t = count_tag (l.drop (l.takeWhile (fun e => e.key == k)).length) t := by
  induction l with
  | nil => simp [count_below, count_tag]
  | cons a l ih =>
    by_cases h1 : a.key = k
    · have h2 : a.key < t := by omega
      have h3 : a.key ≠ t := by omega
      simp only [List.takeWhile_cons, h1, beq_self_eq_true, if_true, List.length_cons,
        List.drop_succ_cons]
      constructor
      · rw [← h1]
        have := ih.1
        rw [← h1] at this
        simp only [count_below, List.filter_cons, h2, decide_True, if_true, List.length_cons] at this ⊢
        omega
      · rw [← h1]
        have := ih.2
        rw [← h1] at this
        simp only [count_tag, List.filter_cons, h3, beq_iff_eq, if_false] at this ⊢
        exact this
    · simp [List.takeWhile_cons, h1]

theorem group_from_spec (g : Nat) : ∀ (rest : List kernel_log_entry_t) (index key : Nat),
    rest.Pairwise (fun a b => a.key ≤ b.key) → (∀ e ∈ rest, key ≤ e.key) →
    group_from rest index key g
      = (List.range g).map
          (fun j => (index + count_below rest (key + j), count_tag rest (key + j))) := by
  induction g with
  | zero => intro rest index key _ _; rfl
  | succ g ih =>
    intro rest index key hs hk
    rw [List.range_succ_eq_map, List.map_cons, List.map_map]
    simp only [group_from]
    have hrun : (rest.takeWhile (fun e => e.key == key)).length = count_tag rest key := by
      rw [takeWhile_eq_filter key rest hs hk]; rfl
    rw [ih _ _ _ (hs.sublist (List.drop_sublist _ _)) (drop_takeWhile_keys key rest hs hk)]
    have h0 : count_below rest (key + 0) = 0 := count_below_eq_zero rest key hk
    rw [h0]
    congr 1
    · rw [hrun]; rfl
    · apply List.map_congr_left
      intro j _
      have hc := counts_drop_takeWhile key (key + 1 + j) (by omega) rest
      simp only [Function.comp, Prod.mk.injEq]
      have e1 : key + Nat.succ j = key + 1 + j := by omega
      rw [e1]
      constructor
      · rw [hc.1]; omega
      · rw [hc.2]

theorem group_sizes (log : List kernel_log_entry_t) (T : Nat)
    (hs : log.Pairwise (fun a b => a.key ≤ b.key)) :
    (logging_group_log_by_key log T).sizes = (List.range T).map (fun t => count_tag log t) := by
  unfold logging_group_log_by_key
  simp only
  rw [group_from_spec T log 0 0 hs (fun _ _ => Nat.zero_le _), List.map_map]
  apply List.map_congr_left
  intro j _
  simp

theorem group_offsets (log : List kernel_log_entry_t) (T : Nat)
    (hs : log.Pairwise (fun a b => a.key ≤ b.key)) :
    (logging_group_log_by_key log T).offsets = (List.range T).map (fun t => count_below log t) := by
  unfold logging_group_log_by_key
  simp only
  rw [group_from_spec T log 0 0 hs (fun _ _ => Nat.zero_le _), List.map_map]
  apply List.map_congr_left
  intro j _
  simp

theorem group_sizes_getD (log : List kernel_log_entry_t) (T t : Nat)
    (hs : log.Pairwise (fun a b => a.key ≤ b.key)) (ht : t < T) :
    (logging_group_log_by_key log T).sizes.getD t 0 = count_tag log t := by
  rw [group_sizes log T hs, List.getD_eq_getElem?_getD, List.getElem?_map,
    List.getElem?_range ht]
  rfl

theorem group_offsets_getD (log : List kernel_log_entry_t) (T t : Nat)
    (hs : log.Pairwise (fun a b => a.key ≤ b.key)) (ht : t < T) :
    (logging_group_log_by_key log T).offsets.getD t 0 = count_below log t := by
  rw [group_offsets log T hs, List.getD_eq_getElem?_getD, List.getElem?_map,
    List.getElem?_range ht]
  rfl

theorem block_getElem? (t k : Nat) (l : List kernel_log_entry_t)
    (hs : l.Pairwise (fun a b => a.key ≤ b.key)) (hk : k < count_tag l t) :
    l[count_below l t + k]? = (l.filter (fun e => e.key == t))[k]? := by
  rw [← sorted_block t l hs, List.getElem?_take_of_lt hk, List.getElem?_drop]

theorem sum_sizes (l : List kernel_log_entry_t) (T : Nat) :
    ((List.range T).map (fun t => count_tag l t)).sum = count_below l T := by
  induction T with
  | zero => simp [count_below]
  | succ T ih =>
    rw [List.range_succ, List.map_append, List.sum_append, ih, count_below_succ]
    simp

/-! ## Properties of the sort and of the grouping -/

/-- C6: after `logging_stable_sort_log` the log is a permutation of the input,
ordered by tag, and for every tag the samples of that tag appear in the same
order as in the input; hence the block of a tag, as delimited by the grouping,
is the chronological sequence of that tag's samples, and its first `N_IGNORED`
entries are the `N_IGNORED` earliest samples of the tag. -/
theorem logging_stable_sort_log_stable (log : List kernel_log_entry_t) :
    (logging_stable_sort_log log).Perm log
    ∧ (logging_stable_sort_log log).Pairwise (fun a b => a.key ≤ b.key)
    ∧ (∀ t : Nat, (logging_stable_sort_log log).filter (fun e => e.key == t)
          = log.filter (fun e => e.key == t))
    ∧ (∀ T t : Nat, t < T →
        ((logging_stable_sort_log log).drop
            ((logging_group_log_by_key (logging_stable_sort_log log) T).offsets.getD t 0)).take
            ((logging_group_log_by_key (logging_stable_sort_log log) T).sizes.getD t 0)
          = log.filter (fun e => e.key == t))
    ∧ (∀ T t N_IGNORED : Nat, t < T →
        (((logging_stable_sort_log log).drop
            ((logging_group_log_by_key (logging_stable_sort_log log) T).offsets.getD t 0)).take
            ((logging_group_log_by_key (logging_stable_sort_log log) T).sizes.getD t 0)).take
            N_IGNORED
          = (log.filter (fun e => e.key == t)).take N_IGNORED) := by
  have hblock : ∀ T t : Nat, t < T →
        ((logging_stable_sort_log log).drop
            ((logging_group_log_by_key (logging_stable_sort_log log) T).offsets.getD t 0)).take
            ((logging_group_log_by_key (logging_stable_sort_log log) T).sizes.getD t 0)
          = log.filter (fun e => e.key == t) := by
    intro T t ht
    rw [group_sizes_getD _ T t (sort_sorted log) ht, group_offsets_getD _ T t (sort_sorted log) ht,
      sorted_block t _ (sort_sorted log), sort_filter]
  refine ⟨sort_perm log, sort_sorted log, fun t => sort_filter t log, hblock, ?_⟩
  intro T t N ht
  rw [hblock T t ht]

/-- C7: for a log sorted by tag whose tags are all below `max_groups`, the
arrays filled by `logging_group_log_by_key` have one cell per tag, start at
offset 0, are laid end to end (`offsets[t+1] = offsets[t] + sizes[t]`), have
sizes summing to the length of the log, every entry inside the range of tag
`t` carries tag `t`, the size of a tag is the number of its occurrences, and a
tag without occurrences has size 0. -/
theorem logging_group_log_by_key_partition (log : List kernel_log_entry_t) (max_groups : Nat)
    (hsorted : log.Pairwise (fun a b => a.key ≤ b.key))
    (hkeys : ∀ e ∈ log, e.key < max_groups) :
    (logging_group_log_by_key log max_groups).sizes.length = max_groups
    ∧ (logging_group_log_by_key log max_groups).offsets.length = max_groups
    ∧ (0 < max_groups → (logging_group_log_by_key log max_groups).offsets[0]? = some 0)
    ∧ (∀ t, t + 1 < max_groups →
        (logging_group_log_by_key log max_groups).offsets.getD (t + 1) 0
          = (logging_group_log_by_key log max_groups).offsets.getD t 0
            + (logging_group_log_by_key log max_groups).sizes.getD t 0)
    ∧ (logging_group_log_by_key log max_groups).sizes.sum = log.length
    ∧ (∀ t, t < max_groups → ∀ i,
        (logging_group_log_by_key log max_groups).offsets.getD t 0 ≤ i →
        i < (logging_group_log_by_key log max_groups).offsets.getD t 0
              + (logging_group_log_by_key log max_groups).sizes.getD t 0 →
        ∃ e, log[i]? = some e ∧ e.key = t)
    ∧ (∀ t, t < max_groups →
        (logging_group_log_by_key log max_groups).sizes.getD t 0
          = (log.filter (fun e => e.key == t)).length)
    ∧ (∀ t, t < max_groups → (∀ e ∈ log, e.key ≠ t) →
        (logging_group_log_by_key log max_groups).sizes.getD t 0 = 0) := by
  refine ⟨?_, ?_, ?_, ?_, ?_, ?_, ?_, ?_⟩
  · rw [group_sizes log max_groups hsorted]; simp
  · rw [group_offsets log max_groups hsorted]; simp
  · intro h
    rw [group_offsets log max_groups hsorted, List.getElem?_map, List.getElem?_range h]
    simp [count_below]
  · intro t ht
    rw [group_offsets_getD log _ _ hsorted ht, group_offsets_getD log _ _ hsorted (by omega),
      group_sizes_getD log _ _ hsorted (by omega), count_below_succ]
  · rw [group_sizes log max_groups hsorted, sum_sizes, count_below_eq_length log _ hkeys]
  · intro t ht i h1 h2
    rw [group_offsets_getD log _ _ hsorted ht] at h1 h2
    rw [group_sizes_getD log _ _ hsorted ht] at h2
    obtain ⟨k, rfl⟩ := Nat.exists_eq_add_of_le h1
    have hk : k < count_tag log t := by omega
    rw [block_getElem? t k log hsorted hk]
    have hk2 : k < (log.filter (fun e => e.key == t)).length := hk
    refine ⟨(log.filter (fun e => e.key == t))[k], List.getElem?_eq_getElem hk2, ?_⟩
    have hmem := List.getElem_mem hk2
    have := (List.mem_filter.mp hmem).2
    simpa using this
  · intro t ht
    rw [group_sizes_getD log _ _ hsorted ht]; rfl
  · intro t ht hno
    rw [group_sizes_getD log _ _ hsorted ht]
    unfold count_tag
    rw [List.length_eq_zero, List.filter_eq_nil_iff]
    intro e he
    simpa using hno e he

/-- C7, at a concrete sorted log of four entries over three tags. -/
theorem logging_group_log_by_key_partition_witness :
    (logging_group_log_by_key [⟨0, 5⟩, ⟨0, 6⟩, ⟨2, 7⟩, ⟨2, 8⟩] 3).sizes.sum = 4
    ∧ (logging_group_log_by_key [⟨0, 5⟩, ⟨0, 6⟩, ⟨2, 7⟩, ⟨2, 8⟩] 3).sizes.getD 1 0 = 0 :=
  have h := logging_group_log_by_key_partition [⟨0, 5⟩, ⟨0, 6⟩, ⟨2, 7⟩, ⟨2, 8⟩] 3
    (by decide) (by decide)
  ⟨h.2.2.2.2.1, h.2.2.2.2.2.2.2 1 (by decide) (by decide)⟩

/-! ## Facts about `process` -/

theorem int_of_uint_sub (a N : Nat) (ha : a < 2 ^ 31) (hN : N < 2 ^ 31) :
    int_of_uint (uint_sub a N) = (a : Int) - (N : Int) := by
  unfold int_of_uint uint_sub UINT_MOD
  norm_num at ha hN ⊢
  split <;> omega

theorem uint_add_small (a N : Nat) (h : a + N < 2 ^ 32) : uint_add a N = a + N := by
  unfold uint_add UINT_MOD
  exact Nat.mod_eq_of_lt h

theorem process_ok_inv {w N : Nat} {m : Bool} {old : List Nat} {log : List kernel_log_entry_t}
    {r : Run} {st : process_state} (hr : process w N m old log = r) (h : r.outcome = .ok st) :
    log.length ≤ old.length ∧ m = true
    ∧ st.sizes = (sort_and_group log).sizes
    ∧ st.offsets = (sort_and_group log).offsets
    ∧ st.kernel_log_data = copied_data old log
    ∧ st.n_overhead_data = usable_count st.sizes TRACE_POINT_OVERHEAD N
    ∧ 0 < st.n_overhead_data
    ∧ st.overhead_data = usable_start st.offsets TRACE_POINT_OVERHEAD N
    ∧ process_result_at st.kernel_log_data st.overhead_data st.n_overhead_data
        = .ok st.overhead_result
    ∧ st.n_data = usable_count st.sizes TRACE_POINT_IRQ_PATH_START N
    ∧ 0 < st.n_data
    ∧ st.starts = usable_start st.offsets TRACE_POINT_IRQ_PATH_START N
    ∧ st.ends = usable_start st.offsets TRACE_POINT_IRQ_PATH_END N
    ∧ amalgamate w st.kernel_log_data st.starts st.ends st.overhead_result.mean
        st.n_data.toNat 0 = .ok st.data
    ∧ process_result st.data = .ok st.result
    ∧ st.result_overhead = st.overhead_result
    ∧ r.trace = [.reduce_overhead st.n_overhead_data, .correct st.n_data,
        .reduce_overhead st.n_overhead_data, .reduce_data st.n_data] := by
  unfold sort_and_group copied_data
  unfold process at hr
  simp only [ZF_LOGF, stopped, List.nil_append, List.cons_append] at hr
  split at hr
  · subst hr; simp at h
  split at hr
  · subst hr; simp at h
  split at hr
  · subst hr; simp at h
  split at hr
  · subst hr; simp at h
  split at hr
  · subst hr; simp at h
  split at hr
  · subst hr; simp at h
  split at hr
  · subst hr; simp at h
  split at hr
  · subst hr; simp at h
  subst hr
  simp only [Except.ok.injEq] at h
  subst h
  simp_all

theorem read_cell_ok {buf : List Nat} {i v : Nat} :
    read_cell buf i = .ok v ↔ buf[i]? = some v := by
  unfold read_cell
  cases h : buf[i]? <;> simp

theorem amalgamate_inv (w : Nat) (buf : List Nat) (starts ends : Nat) (mean : ℚ) :
    ∀ (k i : Nat) (data : List Nat), amalgamate w buf starts ends mean k i = .ok data →
      data.length = k ∧ ∀ j, j < k → ∃ s e d, buf[starts + (i + j)]? = some s
        ∧ buf[ends + (i + j)]? = some e ∧ data[j]? = some d
        ∧ double_to_ccnt w ((ccnt_add w s e : ℚ) - mean * 2) = .ok d := by
  intro k
  induction k with
  | zero =>
    intro i data h
    simp only [amalgamate, Except.ok.injEq] at h
    subst h
    simp
  | succ k ih =>
    intro i data h
    unfold amalgamate at h
    split at h
    · simp at h
    split at h
    · simp at h
    split at h
    · simp at h
    split at h
    · simp at h
    rename_i _ s hs _ e he _ d hd _ rest hrest
    simp only [Except.ok.injEq] at h
    subst h
    obtain ⟨hlen, hall⟩ := ih (i + 1) rest hrest
    refine ⟨by simp [hlen], ?_⟩
    intro j hj
    cases j with
    | zero => exact ⟨s, e, d, read_cell_ok.mp hs, read_cell_ok.mp he, by simp, hd⟩
    | succ j =>
      obtain ⟨s2, e2, d2, h1, h2, h3, h4⟩ := hall j (by omega)
      refine ⟨s2, e2, d2, ?_, ?_, ?_, h4⟩
      · rw [← h1]; congr 1; omega
      · rw [← h2]; congr 1; omega
      · simpa using h3

theorem count_below_sort (log : List kernel_log_entry_t) (t : Nat) :
    count_below (logging_stable_sort_log log) t = count_below log t :=
  ((sort_perm log).filter _).length_eq

theorem count_tag_sort (log : List kernel_log_entry_t) (t : Nat) :
    count_tag (logging_stable_sort_log log) t = count_tag log t :=
  ((sort_perm log).filter _).length_eq

theorem process_sizes (log : List kernel_log_entry_t) (t : Nat)
    (ht : t < CONFIG_MAX_NUM_TRACE_POINTS) :
    (sort_and_group log).sizes.getD t 0 = count_tag log t := by
  unfold sort_and_group
  rw [group_sizes_getD _ _ _ (sort_sorted log) ht, count_tag_sort]

theorem process_offsets (log : List kernel_log_entry_t) (t : Nat)
    (ht : t < CONFIG_MAX_NUM_TRACE_POINTS) :
    (sort_and_group log).offsets.getD t 0 = count_below log t := by
  unfold sort_and_group
  rw [group_offsets_getD _ _ _ (sort_sorted log) ht, count_below_sort]

theorem count_block_le (log : List kernel_log_entry_t) (t : Nat) :
    count_below log t + count_tag log t ≤ log.length := by
  rw [← count_below_succ]
  exact List.length_filter_le _ _

theorem samples_of_length (log : List kernel_log_entry_t) (t : Nat) :
    (samples_of log t).length = count_tag log t := by
  simp [samples_of, count_tag]

theorem copied_data_length (log : List kernel_log_entry_t) (old : List Nat)
    (hbuf : log.length ≤ old.length) : (copied_data old log).length = old.length := by
  unfold copied_data
  rw [List.length_append, List.length_map, sort_length, List.length_drop]
  omega

theorem buf_read (log : List kernel_log_entry_t) (old : List Nat) (t k : Nat)
    (hk : k < count_tag log t) :
    (copied_data old log)[count_below log t + k]? = (samples_of log t)[k]? := by
  unfold copied_data
  have hle := count_block_le log t
  have hlt : count_below log t + k < ((logging_stable_sort_log log).map
      kernel_logging_entry_get_data).length := by
    rw [List.length_map, sort_length]; omega
  rw [List.getElem?_append_left hlt, List.getElem?_map, ← count_below_sort,
    block_getElem? t k _ (sort_sorted log) (by rw [count_tag_sort]; exact hk), sort_filter,
    samples_of, List.getElem?_map]

theorem buf_slice (log : List kernel_log_entry_t) (old : List Nat) (t N : Nat) :
    ((copied_data old log).drop (count_below log t + N)).take (count_tag log t - N)
      = (samples_of log t).drop N := by
  apply List.ext_getElem?
  intro k
  by_cases hk : k < count_tag log t - N
  · rw [List.getElem?_take_of_lt hk, List.getElem?_drop, List.getElem?_drop, Nat.add_assoc,
      buf_read log old t (N + k) (by omega)]
  · rw [List.getElem?_take_eq_none (by omega), List.getElem?_eq_none]
    rw [List.length_drop, samples_of_length]
    omega

theorem usable_count_eq (log : List kernel_log_entry_t) (N t : Nat)
    (ht : t < CONFIG_MAX_NUM_TRACE_POINTS) (hn : log.length < 2 ^ 31) (hN : N < 2 ^ 31) :
    usable_count (sort_and_group log).sizes t N = (count_tag log t : Int) - (N : Int) := by
  unfold usable_count
  rw [process_sizes log t ht]
  have := count_block_le log t
  exact int_of_uint_sub _ _ (by omega) hN

theorem usable_start_eq (log : List kernel_log_entry_t) (N t : Nat)
    (ht : t < CONFIG_MAX_NUM_TRACE_POINTS) (hn : log.length < 2 ^ 31) (hN : N < 2 ^ 31) :
    usable_start (sort_and_group log).offsets t N = count_below log t + N := by
  unfold usable_start
  rw [process_offsets log t ht]
  have := count_block_le log t
  exact uint_add_small _ _ (by omega)

theorem reduce_slice (log : List kernel_log_entry_t) (old : List Nat) (N t : Nat)
    (ht : t < CONFIG_MAX_NUM_TRACE_POINTS) (hn : log.length < 2 ^ 31) (hN : N < 2 ^ 31)
    (hbuf : log.length ≤ old.length) (hpos : N < count_tag log t) :
    process_result_at (copied_data old log) (usable_start (sort_and_group log).offsets t N)
        (usable_count (sort_and_group log).sizes t N)
      = process_result ((samples_of log t).drop N) := by
  rw [usable_start_eq log N t ht hn hN, usable_count_eq log N t ht hn hN]
  unfold process_result_at read_range
  have h1 : ((count_tag log t : Int) - (N : Int)).toNat = count_tag log t - N := by omega
  have h2 := count_block_le log t
  rw [h1, copied_data_length log old hbuf, if_pos (by omega)]
  simp only
  rw [buf_slice]

theorem process_result_ok (l : List Nat) (h : 0 < l.length) :
    process_result l = .ok { min := results_min l, mean := (l.sum : ℚ) / (l.length : ℚ),
                             n := l.length } := by
  unfold process_result
  rw [if_neg (by omega)]

theorem process_of_overhead_insufficient (w N : Nat) (m : Bool) (old : List Nat)
    (log : List kernel_log_entry_t) (hbuf : log.length ≤ old.length)
    (h : usable_count (sort_and_group log).sizes TRACE_POINT_OVERHEAD N ≤ 0) :
    process w N m old log = ⟨[.fatal .insufficient_data], .error .insufficient_data⟩ := by
  unfold sort_and_group at h
  unfold process
  simp only [ZF_LOGF, stopped, List.nil_append, List.cons_append]
  rw [if_neg (by omega), if_pos h]

theorem process_of_start_insufficient (w N : Nat) (m : Bool) (old : List Nat)
    (log : List kernel_log_entry_t) (hbuf : log.length ≤ old.length) (res : result_t)
    (h0 : 0 < usable_count (sort_and_group log).sizes TRACE_POINT_OVERHEAD N)
    (hres : process_result_at (copied_data old log)
        (usable_start (sort_and_group log).offsets TRACE_POINT_OVERHEAD N)
        (usable_count (sort_and_group log).sizes TRACE_POINT_OVERHEAD N) = .ok res)
    (h1 : usable_count (sort_and_group log).sizes TRACE_POINT_IRQ_PATH_START N ≤ 0) :
    process w N m old log
      = ⟨[.reduce_overhead (usable_count (sort_and_group log).sizes TRACE_POINT_OVERHEAD N),
          .fatal .insufficient_data], .error .insufficient_data⟩ := by
  unfold sort_and_group copied_data at *
  unfold process
  simp only [ZF_LOGF, stopped, List.nil_append, List.cons_append]
  rw [if_neg (by omega), if_neg (by omega), hres]
  simp only
  rw [if_pos h1]

/-! ## Properties of `process` -/

/-- C1: for a grouped log (of fewer than `2 ^ 31` entries, held by
`kernel_log_data`; `N_IGNORED` an `int` constant) and for each of the OVERHEAD
and IRQ_PATH_START tags: when `sizes[tag] - N_IGNORED` is positive the usable
count that `process` computes is exactly that difference, and it is the number
of samples the tag's summary is computed from; otherwise `process` ends with
the fatal "Insufficient data" condition and no summary is computed from that
tag (no reduction of the overhead data, respectively no correction and no
reduction of the combined data, takes place). -/
theorem process_warm_up_discount (w N_IGNORED : Nat) (malloc_ok : Bool)
    (kernel_log_data : List Nat) (kernel_log : List kernel_log_entry_t)
    (hn : kernel_log.length < 2 ^ 31) (hN : N_IGNORED < 2 ^ 31)
    (hbuf : kernel_log.length ≤ kernel_log_data.length)
    (tag : Nat) (htag : tag = TRACE_POINT_OVERHEAD ∨ tag = TRACE_POINT_IRQ_PATH_START) :
    (N_IGNORED < (sort_and_group kernel_log).sizes.getD tag 0 →
        usable_count (sort_and_group kernel_log).sizes tag N_IGNORED
          = ((sort_and_group kernel_log).sizes.getD tag 0 : Int) - (N_IGNORED : Int)
        ∧ ∀ st, (process w N_IGNORED malloc_ok kernel_log_data kernel_log).outcome = .ok st →
            (tag = TRACE_POINT_OVERHEAD →
              st.n_overhead_data
                  = ((sort_and_group kernel_log).sizes.getD tag 0 : Int) - (N_IGNORED : Int)
              ∧ st.overhead_result.n = (sort_and_group kernel_log).sizes.getD tag 0 - N_IGNORED)
            ∧ (tag = TRACE_POINT_IRQ_PATH_START →
              st.n_data
                  = ((sort_and_group kernel_log).sizes.getD tag 0 : Int) - (N_IGNORED : Int)
              ∧ st.result.n = (sort_and_group kernel_log).sizes.getD tag 0 - N_IGNORED))
    ∧ ((sort_and_group kernel_log).sizes.getD tag 0 ≤ N_IGNORED →
        (process w N_IGNORED malloc_ok kernel_log_data kernel_log).outcome
          = .error .insufficient_data
        ∧ (tag = TRACE_POINT_OVERHEAD → ∀ s, Event.reduce_overhead s
              ∉ (process w N_IGNORED malloc_ok kernel_log_data kernel_log).trace)
        ∧ (tag = TRACE_POINT_IRQ_PATH_START → ∀ s,
              Event.correct s ∉ (process w N_IGNORED malloc_ok kernel_log_data kernel_log).trace
              ∧ Event.reduce_data s
                ∉ (process w N_IGNORED malloc_ok kernel_log_data kernel_log).trace)) := by
  have ht : tag < CONFIG_MAX_NUM_TRACE_POINTS := by
    rcases htag with rfl | rfl <;> decide
  have hcount := usable_count_eq kernel_log N_IGNORED tag ht hn hN
  have hsz := process_sizes kernel_log tag ht
  constructor
  · intro hpos
    rw [hsz] at hpos ⊢
    refine ⟨hcount, ?_⟩
    intro st hst
    have inv := process_ok_inv rfl hst
    obtain ⟨-, -, e1, e2, e3, e4, -, e5, e6, e7, -, -, -, e8, e9, -, -⟩ := inv
    constructor
    · intro h; subst h
      rw [e1] at e4
      rw [e4, hcount]
      refine ⟨rfl, ?_⟩
      rw [e4, e5, e3, e2, hcount,
        ← usable_count_eq kernel_log N_IGNORED _ ht hn hN,
        reduce_slice kernel_log kernel_log_data N_IGNORED _ ht hn hN hbuf hpos,
        process_result_ok _ (by rw [List.length_drop, samples_of_length]; omega)] at e6
      simp only [Except.ok.injEq] at e6
      rw [← e6]
      simp only
      rw [List.length_drop, samples_of_length]
    · intro h; subst h
      rw [e1] at e7
      rw [e7, hcount]
      refine ⟨rfl, ?_⟩
      have hl := (amalgamate_inv _ _ _ _ _ _ _ _ e8).1
      rw [e7, hcount] at hl
      have hl2 : st.data.length = count_tag kernel_log TRACE_POINT_IRQ_PATH_START - N_IGNORED := by
        omega
      rw [process_result_ok _ (by omega)] at e9
      simp only [Except.ok.injEq] at e9
      rw [← e9]
      exact hl2
  · intro hneg
    rw [hsz] at hneg
    have hle : usable_count (sort_and_group kernel_log).sizes tag N_IGNORED ≤ 0 := by
      rw [hcount]; omega
    by_cases h0 : usable_count (sort_and_group kernel_log).sizes TRACE_POINT_OVERHEAD N_IGNORED ≤ 0
    · rw [process_of_overhead_insufficient w N_IGNORED malloc_ok kernel_log_data kernel_log hbuf h0]
      simp
    · rcases htag with rfl | rfl
      · exact absurd hle h0
      · have h0' : 0 < usable_count (sort_and_group kernel_log).sizes TRACE_POINT_OVERHEAD
            N_IGNORED := by omega
        have hpos0 : N_IGNORED < count_tag kernel_log TRACE_POINT_OVERHEAD := by
          rw [usable_count_eq kernel_log N_IGNORED _ (by decide) hn hN] at h0'
          omega
        have hres := reduce_slice kernel_log kernel_log_data N_IGNORED TRACE_POINT_OVERHEAD
          (by decide) hn hN hbuf hpos0
        rw [process_result_ok _ (by rw [List.length_drop, samples_of_length]; omega)] at hres
        rw [process_of_start_insufficient w N_IGNORED malloc_ok kernel_log_data kernel_log hbuf
          _ h0' hres hle]
        simp [TRACE_POINT_OVERHEAD, TRACE_POINT_IRQ_PATH_START]

/-- C1, at two concrete logs: with `N_IGNORED = 1` and four IRQ_PATH_START
samples the usable count is 3; with `N_IGNORED = 5` and three OVERHEAD samples
(count 3, ignore 5) `process` ends with "Insufficient data". -/
theorem process_warm_up_discount_witness :
    usable_count (sort_and_group
        [⟨0, 7⟩, ⟨1, 100⟩, ⟨2, 50⟩, ⟨0, 10⟩, ⟨1, 200⟩, ⟨2, 300⟩, ⟨1, 210⟩, ⟨2, 290⟩,
         ⟨1, 220⟩, ⟨2, 280⟩]).sizes 1 1 = 3
    ∧ (process 64 5 true [0, 0, 0, 0] [⟨0, 7⟩, ⟨0, 8⟩, ⟨0, 9⟩]).outcome
        = .error .insufficient_data :=
  ⟨((process_warm_up_discount 64 1 true (List.replicate 12 0)
        [⟨0, 7⟩, ⟨1, 100⟩, ⟨2, 50⟩, ⟨0, 10⟩, ⟨1, 200⟩, ⟨2, 300⟩, ⟨1, 210⟩, ⟨2, 290⟩,
         ⟨1, 220⟩, ⟨2, 280⟩] (by decide) (by decide) (by decide) 1 (Or.inr rfl)).1
        (by decide)).1,
   ((process_warm_up_discount 64 5 true [0, 0, 0, 0] [⟨0, 7⟩, ⟨0, 8⟩, ⟨0, 9⟩]
        (by decide) (by decide) (by decide) 0 (Or.inl rfl)).2 (by decide)).1⟩

/-- C8: on every run of `process`, every call of `process_result` receives a
strictly positive count, and when the correction loop runs it runs on a
positive count, directly after the reduction of the OVERHEAD tag's usable
range, whose count is positive and whose summary has been computed. -/
theorem process_reductions_valid (w N_IGNORED : Nat) (malloc_ok : Bool)
    (kernel_log_data : List Nat) (kernel_log : List kernel_log_entry_t) :
    (∀ s, Event.reduce_overhead s
        ∈ (process w N_IGNORED malloc_ok kernel_log_data kernel_log).trace → 0 < s)
    ∧ (∀ s, Event.reduce_data s
        ∈ (process w N_IGNORED malloc_ok kernel_log_data kernel_log).trace → 0 < s)
    ∧ (∀ nd, Event.correct nd
        ∈ (process w N_IGNORED malloc_ok kernel_log_data kernel_log).trace →
        0 < nd ∧ ∃ no rest res,
          (process w N_IGNORED malloc_ok kernel_log_data kernel_log).trace
            = Event.reduce_overhead no :: Event.correct nd :: rest
          ∧ 0 < no
          ∧ no = usable_count (sort_and_group kernel_log).sizes TRACE_POINT_OVERHEAD N_IGNORED
          ∧ process_result_at (copied_data kernel_log_data kernel_log)
              (usable_start (sort_and_group kernel_log).offsets TRACE_POINT_OVERHEAD N_IGNORED)
              no = .ok res) := by
  generalize hr : process w N_IGNORED malloc_ok kernel_log_data kernel_log = r
  unfold sort_and_group copied_data
  unfold process at hr
  simp only [ZF_LOGF, stopped, List.nil_append, List.cons_append] at hr
  split at hr
  · subst hr; simp
  split at hr
  · subst hr; simp
  split at hr
  · subst hr; simp; omega
  split at hr
  · subst hr; simp; omega
  split at hr
  · subst hr; simp; omega
  split at hr
  · subst hr; simp_all
  split at hr
  · subst hr; simp_all
  split at hr
  · subst hr; simp_all
  subst hr
  simp_all


/-- C9: when the arrays partition the `n`-entry log, `sizes[OVERHEAD]` and
`sizes[START]` exceed `N_IGNORED` and `sizes[END] >= sizes[START]`, every
index at which `process` reads `kernel_log_data` is below `n` and inside the
block of its own tag; and there is a log with fewer END than START samples
for which an END index reaches `n`, where `process` reads outside the array. -/
theorem process_index_safety :
    (∀ (sizes offsets : List Nat) (n N_IGNORED : Nat),
        sizes.length = CONFIG_MAX_NUM_TRACE_POINTS →
        offsets.length = CONFIG_MAX_NUM_TRACE_POINTS →
        offsets.getD 0 0 = 0 →
        (∀ t, t + 1 < CONFIG_MAX_NUM_TRACE_POINTS →
          offsets.getD (t + 1) 0 = offsets.getD t 0 + sizes.getD t 0) →
        sizes.sum = n → n < 2 ^ 31 →
        N_IGNORED < sizes.getD TRACE_POINT_OVERHEAD 0 →
        N_IGNORED < sizes.getD TRACE_POINT_IRQ_PATH_START 0 →
        sizes.getD TRACE_POINT_IRQ_PATH_START 0 ≤ sizes.getD TRACE_POINT_IRQ_PATH_END 0 →
        (∀ j : Nat, (j : Int) < usable_count sizes TRACE_POINT_OVERHEAD N_IGNORED →
          usable_start offsets TRACE_POINT_OVERHEAD N_IGNORED + j < n
          ∧ offsets.getD TRACE_POINT_OVERHEAD 0
              ≤ usable_start offsets TRACE_POINT_OVERHEAD N_IGNORED + j
          ∧ usable_start offsets TRACE_POINT_OVERHEAD N_IGNORED + j
              < offsets.getD TRACE_POINT_OVERHEAD 0 + sizes.getD TRACE_POINT_OVERHEAD 0)
        ∧ (∀ i : Nat, (i : Int) < usable_count sizes TRACE_POINT_IRQ_PATH_START N_IGNORED →
          usable_start offsets TRACE_POINT_IRQ_PATH_START N_IGNORED + i < n
          ∧ offsets.getD TRACE_POINT_IRQ_PATH_START 0
              ≤ usable_start offsets TRACE_POINT_IRQ_PATH_START N_IGNORED + i
          ∧ usable_start offsets TRACE_POINT_IRQ_PATH_START N_IGNORED + i
              < offsets.getD TRACE_POINT_IRQ_PATH_START 0
                + sizes.getD TRACE_POINT_IRQ_PATH_START 0
          ∧ usable_start offsets TRACE_POINT_IRQ_PATH_END N_IGNORED + i < n
          ∧ offsets.getD TRACE_POINT_IRQ_PATH_END 0
              ≤ usable_start offsets TRACE_POINT_IRQ_PATH_END N_IGNORED + i
          ∧ usable_start offsets TRACE_POINT_IRQ_PATH_END N_IGNORED + i
              < offsets.getD TRACE_POINT_IRQ_PATH_END 0
                + sizes.getD TRACE_POINT_IRQ_PATH_END 0))
    ∧ (∃ (log : List kernel_log_entry_t) (N_IGNORED i : Nat),
        log.Pairwise (fun a b => a.key ≤ b.key)
        ∧ (∀ e ∈ log, e.key < CONFIG_MAX_NUM_TRACE_POINTS)
        ∧ N_IGNORED < (sort_and_group log).sizes.getD TRACE_POINT_OVERHEAD 0
        ∧ N_IGNORED < (sort_and_group log).sizes.getD TRACE_POINT_IRQ_PATH_START 0
        ∧ (i : Int) < usable_count (sort_and_group log).sizes TRACE_POINT_IRQ_PATH_START N_IGNORED
        ∧ log.length ≤ usable_start (sort_and_group log).offsets TRACE_POINT_IRQ_PATH_END
            N_IGNORED + i
        ∧ (process 64 N_IGNORED true (List.replicate log.length 0) log).outcome
            = .error .out_of_bounds) := by
  constructor
  · intro sizes offsets n N hs ho h0 hchain hsum hn hO hS hE
    obtain ⟨a, b, c, rfl⟩ := List.length_eq_three.mp hs
    obtain ⟨x, y, z, rfl⟩ := List.length_eq_three.mp ho
    have h1 := hchain 0 (by decide)
    have h2 := hchain 1 (by decide)
    simp only [TRACE_POINT_OVERHEAD, TRACE_POINT_IRQ_PATH_START, TRACE_POINT_IRQ_PATH_END,
      List.getD_cons_zero, List.getD_cons_succ, List.sum_cons, List.sum_nil,
      Nat.add_zero, usable_count, usable_start] at *
    subst h0
    rw [int_of_uint_sub a N (by omega) (by omega), int_of_uint_sub b N (by omega) (by omega),
      uint_add_small 0 N (by omega), uint_add_small y N (by omega),
      uint_add_small z N (by omega)]
    constructor
    · intro j hj; omega
    · intro i hi; omega
  · refine ⟨[⟨0, 1⟩, ⟨0, 1⟩, ⟨1, 2⟩, ⟨1, 3⟩, ⟨1, 3⟩, ⟨2, 4⟩, ⟨2, 4⟩], 1, 1, ?_⟩
    decide!

/-- C9, at the arrays of a ten-entry log with 2 OVERHEAD, 4 START and 4 END
samples and `N_IGNORED = 1`: the three END reads are at indices 7, 8, 9. -/
theorem process_index_safety_witness :
    usable_start [0, 2, 6] TRACE_POINT_IRQ_PATH_END 1 + 2 < 10
    ∧ [0, 2, 6].getD TRACE_POINT_IRQ_PATH_END 0
        ≤ usable_start [0, 2, 6] TRACE_POINT_IRQ_PATH_END 1 + 2 :=
  have h := (process_index_safety.1 [2, 4, 4] [0, 2, 6] 10 1 (by decide) (by decide) (by decide)
    (by
      intro t ht
      have ht2 : t = 0 ∨ t = 1 := by unfold CONFIG_MAX_NUM_TRACE_POINTS at ht; omega
      rcases ht2 with rfl | rfl <;> rfl)
    (by decide) (by decide) (by decide) (by decide) (by decide)).2 2 (by decide)
  ⟨h.2.2.2.1, h.2.2.2.2.1⟩

theorem foldl_min_spec : ∀ (xs : List Nat) (x : Nat),
    xs.foldl Nat.min x ∈ x :: xs ∧ ∀ y ∈ x :: xs, xs.foldl Nat.min x ≤ y := by
  intro xs
  induction xs with
  | nil => intro x; simp
  | cons a xs ih =>
    intro x
    obtain ⟨h1, h2⟩ := ih (Nat.min x a)
    simp only [List.foldl_cons]
    constructor
    · rcases List.mem_cons.mp h1 with h | h
      · rw [h]
        have hmin : Nat.min x a = x ∨ Nat.min x a = a := by
          rcases Nat.le_total x a with hxa | hxa
          · exact Or.inl (Nat.min_eq_left hxa)
          · exact Or.inr (Nat.min_eq_right hxa)
        rcases hmin with hm | hm <;> rw [hm] <;> simp
      · exact List.mem_cons_of_mem _ (List.mem_cons_of_mem _ h)
    · intro y hy
      have hm := h2 (Nat.min x a) (List.mem_cons_self _ _)
      rcases List.mem_cons.mp hy with rfl | hy
      · exact le_trans hm (Nat.min_le_left _ _)
      · rcases List.mem_cons.mp hy with rfl | hy
        · exact le_trans hm (Nat.min_le_right _ _)
        · exact h2 y (List.mem_cons_of_mem _ hy)

theorem results_min_spec (l : List Nat) (h : 0 < l.length) :
    results_min l ∈ l ∧ ∀ y ∈ l, results_min l ≤ y := by
  cases l with
  | nil => simp at h
  | cons x xs => exact foldl_min_spec xs x

theorem process_result_ignored_ok (a : List Nat) (N_RUNS N_IGNORED : Nat)
    (hlen : a.length = N_RUNS) (hN : N_IGNORED < N_RUNS) :
    process_result_ignored a N_RUNS N_IGNORED
      = .ok { min := results_min (a.drop N_IGNORED),
              mean := ((a.drop N_IGNORED).sum : ℚ) / ((a.drop N_IGNORED).length : ℚ),
              n := (a.drop N_IGNORED).length } := by
  unfold process_result_ignored read_range
  rw [if_pos (by omega)]
  simp only [List.drop_zero]
  rw [← hlen, List.take_length]
  exact process_result_ok _ (by rw [List.length_drop]; omega)

theorem account_for_overhead_spec (w mn : Nat) : ∀ (k i : Nat) (r : irquser_results_t),
    i + k ≤ r.thread_results.length → i + k ≤ r.process_results.length →
    ∃ r', account_for_overhead w mn k i r = .ok r' ∧ r'.overheads = r.overheads
      ∧ r'.thread_results.length = r.thread_results.length
      ∧ r'.process_results.length = r.process_results.length
      ∧ (∀ j, r'.thread_results[j]?
          = if i ≤ j ∧ j < i + k then (r.thread_results[j]?).map (fun t => ccnt_sub w t mn)
            else r.thread_results[j]?)
      ∧ (∀ j, r'.process_results[j]?
          = if i ≤ j ∧ j < i + k then (r.process_results[j]?).map (fun t => ccnt_sub w t mn)
            else r.process_results[j]?) := by
  intro k
  induction k with
  | zero =>
    intro i r _ _
    refine ⟨r, rfl, rfl, rfl, rfl, ?_, ?_⟩ <;> intro j <;> rw [if_neg (by omega)]
  | succ k ih =>
    intro i r ht hp
    have hti : i < r.thread_results.length := by omega
    have hpi : i < r.process_results.length := by omega
    unfold account_for_overhead
    rw [read_cell_ok.mpr (List.getElem?_eq_getElem hti),
      read_cell_ok.mpr (List.getElem?_eq_getElem hpi)]
    simp only
    obtain ⟨r', h1, h2, h3, h4, h5, h6⟩ := ih (i + 1)
      { r with thread_results := r.thread_results.set i (ccnt_sub w r.thread_results[i] mn),
               process_results := r.process_results.set i (ccnt_sub w r.process_results[i] mn) }
      (by simp only [List.length_set]; omega) (by simp only [List.length_set]; omega)
    refine ⟨r', h1, h2, by rw [h3, List.length_set], by rw [h4, List.length_set], ?_, ?_⟩
    · intro j
      rw [h5 j]
      simp only [List.getElem?_set]
      by_cases hij : i = j
      · subst hij
        rw [if_neg (by omega), if_pos rfl, if_pos hti, if_pos (by omega),
          List.getElem?_eq_getElem hti]
        rfl
      · rw [if_neg hij]
        by_cases hc : i + 1 ≤ j ∧ j < i + 1 + k
        · rw [if_pos hc, if_pos (by omega)]
        · rw [if_neg hc, if_neg (by omega)]
    · intro j
      rw [h6 j]
      simp only [List.getElem?_set]
      by_cases hij : i = j
      · subst hij
        rw [if_neg (by omega), if_pos rfl, if_pos hpi, if_pos (by omega),
          List.getElem?_eq_getElem hpi]
        rfl
      · rw [if_neg hij]
        by_cases hc : i + 1 ≤ j ∧ j < i + 1 + k
        · rw [if_pos hc, if_pos (by omega)]
        · rw [if_neg hc, if_neg (by omega)]

theorem irquser_process_spec (w N_RUNS N_IGNORED : Nat) (raw : irquser_results_t)
    (ho : raw.overheads.length = N_RUNS) (ht : raw.thread_results.length = N_RUNS)
    (hp : raw.process_results.length = N_RUNS) (hN : N_IGNORED < N_RUNS) :
    ∃ st, irquser_process w N_RUNS N_IGNORED raw = .ok st
      ∧ process_result_ignored raw.overheads N_RUNS N_IGNORED = .ok st.overhead
      ∧ st.overhead.min = results_min (raw.overheads.drop N_IGNORED)
      ∧ st.raw_results.overheads = raw.overheads
      ∧ ∀ i, i < N_RUNS → ∃ t p, raw.thread_results[i]? = some t
          ∧ raw.process_results[i]? = some p
          ∧ st.raw_results.thread_results[i]? = some (ccnt_sub w t st.overhead.min)
          ∧ st.raw_results.process_results[i]? = some (ccnt_sub w p st.overhead.min) := by
  have h1 := process_result_ignored_ok raw.overheads N_RUNS N_IGNORED ho hN
  obtain ⟨r', l1, l2, l3, l4, l5, l6⟩ := account_for_overhead_spec w
    (results_min (raw.overheads.drop N_IGNORED)) N_RUNS 0 raw (by omega) (by omega)
  have h3 := process_result_ignored_ok r'.thread_results N_RUNS N_IGNORED (by omega) hN
  have h4 := process_result_ignored_ok r'.process_results N_RUNS N_IGNORED (by omega) hN
  refine ⟨{ raw_results := r',
             overhead := { min := results_min (raw.overheads.drop N_IGNORED),
                           mean := ((raw.overheads.drop N_IGNORED).sum : ℚ)
                             / ((raw.overheads.drop N_IGNORED).length : ℚ),
                           n := (raw.overheads.drop N_IGNORED).length },
             intraas_result :=
               { min := results_min (r'.thread_results.drop N_IGNORED),
                 mean := ((r'.thread_results.drop N_IGNORED).sum : ℚ)
                   / ((r'.thread_results.drop N_IGNORED).length : ℚ),
                 n := (r'.thread_results.drop N_IGNORED).length },
             interas_result :=
               { min := results_min (r'.process_results.drop N_IGNORED),
                 mean := ((r'.process_results.drop N_IGNORED).sum : ℚ)
                   / ((r'.process_results.drop N_IGNORED).length : ℚ),
                 n := (r'.process_results.drop N_IGNORED).length } }, ?_, h1, rfl, ?_, ?_⟩
  · unfold irquser_process
    rw [h1]
    simp only
    rw [l1]
    simp only
    rw [h3, h4]
  · exact l2
  · intro i hi
    have hti : i < raw.thread_results.length := by omega
    have hpi : i < raw.process_results.length := by omega
    refine ⟨raw.thread_results[i], raw.process_results[i], List.getElem?_eq_getElem hti,
      List.getElem?_eq_getElem hpi, ?_, ?_⟩
    · simp only
      rw [l5 i, if_pos (by omega), List.getElem?_eq_getElem hti]
      rfl
    · simp only
      rw [l6 i, if_pos (by omega), List.getElem?_eq_getElem hpi]
      rfl

theorem ccnt_sub_int (w a b : Nat) :
    ((ccnt_sub w a b : Nat) : Int) = ((a : Int) - (b : Int)) % ((2 : Int) ^ w) := by
  unfold ccnt_sub
  have hM : 0 < 2 ^ w := by positivity
  have hb : b % 2 ^ w ≤ a % 2 ^ w + 2 ^ w := by
    have := Nat.mod_lt b hM
    omega
  rw [Int.natCast_mod, Nat.cast_sub hb]
  push_cast
  have e : ((a : Int) % 2 ^ w + 2 ^ w - (b : Int) % 2 ^ w)
      = ((a : Int) % 2 ^ w - (b : Int) % 2 ^ w) + 2 ^ w := by ring
  rw [e, Int.add_emod_self, ← Int.sub_emod]

/-- C10: `irquser_process` on arrays of `N_RUNS` entries (with
`N_IGNORED < N_RUNS`) returns; `overhead.min` is the minimum that
`process_result_ignored` reports for the overheads with the first `N_IGNORED`
entries ignored, that is the least entry of the overheads from index
`N_IGNORED` on; the overheads array is unchanged; and for every `i < N_RUNS`,
warm-up entries included, `thread_results[i]` and `process_results[i]` become
their old value minus `overhead.min` modulo `2 ^ w`. -/
theorem irquser_process_effect (w N_RUNS N_IGNORED : Nat) (raw_results : irquser_results_t)
    (ho : raw_results.overheads.length = N_RUNS)
    (ht : raw_results.thread_results.length = N_RUNS)
    (hp : raw_results.process_results.length = N_RUNS) (hN : N_IGNORED < N_RUNS) :
    ∃ st, irquser_process w N_RUNS N_IGNORED raw_results = .ok st
      ∧ process_result_ignored raw_results.overheads N_RUNS N_IGNORED = .ok st.overhead
      ∧ st.overhead.min ∈ raw_results.overheads.drop N_IGNORED
      ∧ (∀ x ∈ raw_results.overheads.drop N_IGNORED, st.overhead.min ≤ x)
      ∧ st.raw_results.overheads = raw_results.overheads
      ∧ ∀ i, i < N_RUNS → ∃ t p t' p', raw_results.thread_results[i]? = some t
          ∧ raw_results.process_results[i]? = some p
          ∧ st.raw_results.thread_results[i]? = some t'
          ∧ st.raw_results.process_results[i]? = some p'
          ∧ (t' : Int) = ((t : Int) - (st.overhead.min : Int)) % ((2 : Int) ^ w)
          ∧ (p' : Int) = ((p : Int) - (st.overhead.min : Int)) % ((2 : Int) ^ w) := by
  obtain ⟨st, h1, h2, h3, h4, h5⟩ :=
    irquser_process_spec w N_RUNS N_IGNORED raw_results ho ht hp hN
  have hmin := results_min_spec (raw_results.overheads.drop N_IGNORED)
    (by rw [List.length_drop]; omega)
  refine ⟨st, h1, h2, by rw [h3]; exact hmin.1, by rw [h3]; exact hmin.2, h4, ?_⟩
  intro i hi
  obtain ⟨t, p, a, b, c, d⟩ := h5 i hi
  exact ⟨t, p, _, _, a, b, c, d, ccnt_sub_int w t _, ccnt_sub_int w p _⟩

/-- C10, on three runs with `N_IGNORED = 1`: the call returns and leaves the
overheads 9, 5, 6 as they were. -/
theorem irquser_process_effect_witness :
    ∃ st, irquser_process 64 3 1 irquser_example = .ok st
      ∧ st.raw_results.overheads = [9, 5, 6] :=
  match irquser_process_effect 64 3 1 irquser_example rfl rfl rfl (by decide) with
  | ⟨st, h1, _, _, _, h5, _⟩ => ⟨st, h1, h5⟩

end Irq
